import Mathlib

/-
  Verification of the hcipy aperture-mask generation engine, the optical
  element interface and the io format dispatch, shallowly embedded from
  the Python source (hcipy/aperture/generic.py, hcipy/optics/optical_element.py,
  hcipy/util/io.py).
-/

open Classical
open Real (pi)

/-- Coordinate system tag of a grid (the code only distinguishes cartesian
    from non-cartesian; the non-cartesian representative is polar). -/
inductive CoordinateSystem where
  | cartesian
  | polar
deriving DecidableEq

/-- External grid collaborator: a coordinate system tag plus the native
    coordinates of its sample points, one pair per point. For a cartesian
    grid a pair is (x, y); for a polar grid it is (r, theta). -/
structure Grid where
  system : CoordinateSystem
  coords : List (ℝ × ℝ)

/-- Number of sample points of the grid. -/
def Grid.size (g : Grid) : ℕ := g.coords.length

/-- The capability query grid.is_('cartesian'). -/
def Grid.is_cartesian (g : Grid) : Bool :=
  match g.system with
  | .cartesian => true
  | .polar => false

/-- The conversion grid.as_('cartesian'): the identity on a cartesian grid,
    and the polar-to-cartesian coordinate transform otherwise. -/
noncomputable def Grid.as_cartesian (g : Grid) : Grid :=
  match g.system with
  | .cartesian => g
  | .polar => ⟨.cartesian, g.coords.map (fun p => (p.1 * Real.cos p.2, p.1 * Real.sin p.2))⟩

/-- The radius array grid.r: the native radial coordinate on a polar grid,
    and the euclidean distance from the origin on a cartesian grid. -/
noncomputable def Grid.r (g : Grid) : List ℝ :=
  match g.system with
  | .cartesian => g.coords.map (fun p => Real.sqrt (p.1 ^ 2 + p.2 ^ 2))
  | .polar => g.coords.map (fun p => p.1)

/-- Well-formedness of the external grid: the radial coordinate of a polar
    grid is nonnegative. -/
def Grid.valid (g : Grid) : Prop :=
  g.system = .polar → ∀ p ∈ g.coords, 0 ≤ p.1

/-- A transmission field: per-point values tagged with the grid they were
    sampled on. -/
structure TransmissionField where
  values : List ℝ
  grid : Grid

/-- Conversion of a boolean test to a float mask value, as performed by
    numpy astype('float') on a boolean array: True becomes 1.0, False 0.0. -/
noncomputable def indicator (P : Prop) : ℝ := if P then 1 else 0

/-- The cartesian fast path test of circular_aperture:
    x**2 + y**2 <= (diameter / 2)**2, as a float. -/
noncomputable def circular_cartesian_test (diameter : ℝ) (p : ℝ × ℝ) : ℝ :=
  indicator (p.1 ^ 2 + p.2 ^ 2 ≤ (diameter / 2) ^ 2)

/-- The polar path test of circular_aperture: r <= diameter / 2, as a float. -/
noncomputable def circular_polar_test (diameter : ℝ) (r : ℝ) : ℝ :=
  indicator (r ≤ diameter / 2)

/-- circular_aperture(diameter) applied to a grid: dispatches on the native
    coordinate system as the source does. -/
noncomputable def circular_aperture (diameter : ℝ) (grid : Grid) : TransmissionField :=
  if grid.is_cartesian then
    ⟨grid.coords.map (circular_cartesian_test diameter), grid⟩
  else
    ⟨grid.r.map (circular_polar_test diameter), grid⟩

/-- The size argument of rectangular_aperture: a scalar or a pair,
    mirroring the numpy broadcast size * np.ones(2). -/
inductive Size where
  | scalar (s : ℝ)
  | pair (w h : ℝ)

/-- Broadcast of the size argument to two extents (size * np.ones(2)). -/
def Size.broadcast : Size → ℝ × ℝ
  | .scalar s => (s, s)
  | .pair w h => (w, h)

/-- rectangular_aperture(size, center) applied to a grid. The center
    parameter is accepted but, as in the source, never used. -/
noncomputable def rectangular_aperture (size : Size) (center : Option (ℝ × ℝ))
    (grid : Grid) : TransmissionField :=
  let dim := size.broadcast
  ⟨grid.as_cartesian.coords.map (fun p =>
    indicator (|p.1| ≤ dim.1 / 2) * indicator (|p.2| ≤ dim.2 / 2)), grid⟩

/-- The list of tested angles of regular_polygon_aperture. For even
    num_sides: arange(int(num_sides/2)) * pi / int(num_sides/2). For odd
    num_sides: arange(int(num_sides/2) + 1) * (num_sides - 2) * pi /
    (num_sides / 2), where num_sides / 2 is true division. -/
noncomputable def polygon_thetas (num_sides : ℕ) : List ℝ :=
  if num_sides % 2 = 0 then
    (List.range (num_sides / 2)).map
      (fun k : ℕ => (k : ℝ) * pi / ((num_sides / 2 : ℕ) : ℝ))
  else
    (List.range (num_sides / 2 + 1)).map
      (fun k : ℕ => (k : ℝ) * ((num_sides : ℝ) - 2) * pi / ((num_sides : ℝ) / 2))

/-- The sampling closure returned by regular_polygon_aperture: bounding
    prefilter by a rectangular mask of size 4 * circum_diameter, then the
    running product of half-plane indicator tests over the tested angles,
    with the even and odd test formulas of the source. -/
noncomputable def regular_polygon_func (num_sides : ℕ) (circum_diameter : ℝ)
    (grid : Grid) : TransmissionField :=
  let apothem := Real.cos (pi / num_sides) * circum_diameter / 2
  let g := grid.as_cartesian
  let maskVals := (rectangular_aperture (.scalar (circum_diameter * 4)) none g).values
  ⟨(g.coords.zip maskVals).map (fun pm =>
    if pm.2 ≠ 0 then
      if num_sides % 2 = 0 then
        (polygon_thetas num_sides).foldl
          (fun f θ => f * indicator (|Real.cos θ * pm.1.1 + Real.sin θ * pm.1.2| < apothem)) 1
      else
        (polygon_thetas num_sides).foldl
          (fun f θ => f * indicator (|Real.sin θ * pm.1.1| + (-Real.cos θ) * pm.1.2 < apothem)) 1
    else 0), grid⟩

/-- regular_polygon_aperture(num_sides, circum_diameter): validates
    num_sides at factory time and returns the sampling closure. -/
noncomputable def regular_polygon_aperture (num_sides : ℕ) (circum_diameter : ℝ) :
    Except String (Grid → TransmissionField) :=
  if num_sides < 3 then
    .error "The number of sides for a regular polygon has to greater or equal to 3."
  else
    .ok (regular_polygon_func num_sides circum_diameter)

/-- hexagonal_aperture(circum_diameter) = regular_polygon_aperture(6, circum_diameter). -/
noncomputable def hexagonal_aperture (circum_diameter : ℝ) : Except String (Grid → TransmissionField) :=
  regular_polygon_aperture 6 circum_diameter

/-- Signed projection of a point onto the m-th edge-normal direction of the
    regular polygon drawn by the code. The even branch of the source orients
    the polygon with an edge normal along the positive x axis, the odd
    branch with an edge normal pointing down; in both cases the n edge
    normals are spaced by 2 * pi / n. -/
noncomputable def edge_normal_projection (num_sides m : ℕ) (p : ℝ × ℝ) : ℝ :=
  if num_sides % 2 = 0 then
    Real.cos (2 * m * pi / num_sides) * p.1 + Real.sin (2 * m * pi / num_sides) * p.2
  else
    Real.sin (2 * m * pi / num_sides) * p.1 - Real.cos (2 * m * pi / num_sides) * p.2

/-- Brute-force reference mask from the specification: a point gets 1.0 iff
    for every one of the n edge-normal directions its signed projection is
    within the apothem cos(pi / n) * circum_diameter / 2, with no bounding
    prefilter and no symmetry reduction. -/
noncomputable def brute_force_polygon_mask (num_sides : ℕ) (circum_diameter : ℝ)
    (grid : Grid) : TransmissionField :=
  ⟨grid.as_cartesian.coords.map (fun p =>
    indicator (∀ m < num_sides,
      edge_normal_projection num_sides m p < Real.cos (pi / num_sides) * circum_diameter / 2)),
   grid⟩

/-- Predicate of the field invariant: every value is exactly 0.0 or 1.0. -/
def all_binary (l : List ℝ) : Prop := ∀ v ∈ l, v = 0 ∨ v = 1

/-- Outcome of a python call: a normal return or a raised exception. -/
inductive PyExc (W : Type) where
  | notImplementedError
  | raisedValue (v : W)
deriving DecidableEq

/-- Result of invoking a python method: return value or exception. -/
inductive PyOutcome (W : Type) where
  | ret (v : W)
  | exc (e : PyExc W)
deriving DecidableEq

/-- An optical element: its forward and backward methods as overridden by a
    concrete subclass, each either returning a wavefront or raising. -/
structure OpticalElement (W : Type) where
  forward : W → PyOutcome W
  backward : W → PyOutcome W

/-- The abstract base element whose forward and backward raise
    NotImplementedError. -/
def OpticalElement.base (W : Type) : OpticalElement W :=
  ⟨fun _ => .exc .notImplementedError, fun _ => .exc .notImplementedError⟩

/-- The convenience call operator of OpticalElement, as written in the
    source: raise self.forward(wavefront). If forward raises, that
    exception propagates; if forward returns a value, that value is itself
    raised, never returned. -/
def OpticalElement.call {W : Type} (e : OpticalElement W) (w : W) : PyOutcome W :=
  match e.forward w with
  | .ret v => .exc (.raisedValue v)
  | .exc ex => .exc ex

/-- A concrete element whose forward and backward are implemented and
    return their input unchanged. -/
def id_element : OpticalElement ℕ :=
  ⟨fun w => .ret w, fun w => .ret w⟩

/-- Outcome of one of the io.py persistence operations, abstracting the
    actual file access: which format branch performed io, or which error
    was raised before any file content was touched. -/
inductive IoOutcome where
  | performed (fmt : String)
  | valueError
  | notImplementedError
deriving DecidableEq

/-- Python str.endswith, expressed on the character sequences of the two
    strings. -/
def ends_with (filename suffix : String) : Bool :=
  suffix.data.isSuffixOf filename.data

/-- The extension-based format guess of io.py. -/
def guess_file_format (filename : String) : Option String :=
  if ends_with filename "asdf" then some "asdf"
  else if ends_with filename "fits" || ends_with filename "fits.gz" then some "fits"
  else none

/-- read_grid(filename, fmt): resolve the format, raising ValueError when
    it is neither given nor guessable, then dispatch. -/
def read_grid (filename : String) (fmt : Option String) : IoOutcome :=
  match (match fmt with
         | some f => some f
         | none => guess_file_format filename) with
  | none => .valueError
  | some f => if f = "asdf" ∨ f = "fits" then .performed f else .notImplementedError

/-- write_grid(grid, filename, fmt, overwrite): same format resolution,
    then dispatch on asdf or fits. -/
def write_grid (grid : Grid) (filename : String) (fmt : Option String) : IoOutcome :=
  match (match fmt with
         | some f => some f
         | none => guess_file_format filename) with
  | none => .valueError
  | some f =>
    if f = "asdf" then .performed "asdf"
    else if f = "fits" then .performed "fits"
    else .notImplementedError

/-- read_field(filename, fmt): same format resolution, then dispatch. -/
def read_field (filename : String) (fmt : Option String) : IoOutcome :=
  match (match fmt with
         | some f => some f
         | none => guess_file_format filename) with
  | none => .valueError
  | some f =>
    if f = "asdf" then .performed "asdf"
    else if f = "fits" then .performed "fits"
    else .notImplementedError

/-- write_field(field, filename, fmt, overwrite): same format resolution,
    then dispatch. -/
def write_field (field : TransmissionField) (filename : String) (fmt : Option String) : IoOutcome :=
  match (match fmt with
         | some f => some f
         | none => guess_file_format filename) with
  | none => .valueError
  | some f =>
    if f = "asdf" then .performed "asdf"
    else if f = "fits" then .performed "fits"
    else .notImplementedError

/- Basic lemmas about the embedding. -/

theorem indicator_of_true {P : Prop} (h : P) : indicator P = 1 := if_pos h

theorem indicator_of_false {P : Prop} (h : ¬P) : indicator P = 0 := if_neg h

theorem indicator_congr {P Q : Prop} (h : P ↔ Q) : indicator P = indicator Q := by
  by_cases hP : P
  · rw [indicator_of_true hP, indicator_of_true (h.mp hP)]
  · rw [indicator_of_false hP, indicator_of_false (fun hq => hP (h.mpr hq))]

theorem indicator_mul (P Q : Prop) : indicator P * indicator Q = indicator (P ∧ Q) := by
  by_cases hP : P <;> by_cases hQ : Q <;>
    simp [indicator_of_true, indicator_of_false, hP, hQ, indicator]

theorem indicator_zero_or_one (P : Prop) : indicator P = 0 ∨ indicator P = 1 := by
  by_cases hP : P
  · exact Or.inr (indicator_of_true hP)
  · exact Or.inl (indicator_of_false hP)

theorem indicator_ne_zero_iff (P : Prop) : indicator P ≠ 0 ↔ P := by
  by_cases hP : P <;> simp [indicator, hP]

theorem Grid.as_cartesian_system (g : Grid) : g.as_cartesian.system = .cartesian := by
  rcases g with ⟨(_ | _), c⟩ <;> rfl

theorem Grid.as_cartesian_idem (g : Grid) : g.as_cartesian.as_cartesian = g.as_cartesian := by
  rcases g with ⟨(_ | _), c⟩ <;> rfl

theorem Grid.as_cartesian_length (g : Grid) :
    g.as_cartesian.coords.length = g.coords.length := by
  rcases g with ⟨(_ | _), c⟩
  · rfl
  · exact List.length_map _ _

theorem Grid.as_cartesian_of_cartesian (g : Grid) (h : g.system = .cartesian) :
    g.as_cartesian = g := by
  rcases g with ⟨(_ | _), c⟩
  · rfl
  · exact absurd h (by simp)

/-- C1: the convenience call operator of OpticalElement never returns the
    result of forward to the caller. As written, raise self.forward(wavefront)
    raises whenever forward returns a value, so the claim that the operator
    returns forward(w) as a normal return value fails; the concrete
    id_element with an implemented, returning forward exhibits it. -/
theorem C1_call_raises_instead_of_returning :
    (id_element.forward 0 = .ret 0 ∧
      OpticalElement.call id_element 0 = .exc (.raisedValue 0)) ∧
    ∀ (W : Type) (e : OpticalElement W) (w v : W),
      e.forward w = .ret v → OpticalElement.call e w = .exc (.raisedValue v) := by
  refine ⟨⟨rfl, rfl⟩, ?_⟩
  intro W e w v h
  unfold OpticalElement.call
  rw [h]

/-- Witness for C1 at a concrete element and wavefront. -/
theorem C1_witness :
    id_element.forward 1 = .ret 1 ∧
    OpticalElement.call id_element 1 = .exc (.raisedValue 1) :=
  ⟨rfl, C1_call_raises_instead_of_returning.2 ℕ id_element 1 1 rfl⟩

/-- C5: rectangular_aperture((w, h)) is 1.0 exactly on the centered window
    given by abs x at most w over 2 and abs y at most h over 2, and a scalar
    size s is broadcast to the square case (s, s). -/
theorem C5_rectangular_mask (w h : ℝ) (center : Option (ℝ × ℝ)) (g : Grid) :
    (rectangular_aperture (.pair w h) center g).values =
      g.as_cartesian.coords.map
        (fun p => indicator (|p.1| ≤ w / 2 ∧ |p.2| ≤ h / 2)) ∧
    ∀ s : ℝ, rectangular_aperture (.scalar s) center g =
      rectangular_aperture (.pair s s) center g := by
  constructor
  · unfold rectangular_aperture
    simp only [Size.broadcast]
    congr 1
    funext p
    exact indicator_mul _ _
  · intro s
    rfl

/-- C6: the center parameter of rectangular_aperture has no influence on
    the output field; the mask window is always centered at the origin. -/
theorem C6_center_has_no_influence (size : Size) (c1 c2 : Option (ℝ × ℝ)) (g : Grid) :
    rectangular_aperture size c1 g = rectangular_aperture size c2 g := rfl

/-- C7: regular_polygon_aperture validates num_sides at factory-construction
    time: fewer than 3 sides raises ValueError before any grid is touched,
    and at least 3 sides yields the sampling closure with no error. -/
theorem C7_polygon_factory_validation (n : ℕ) (D : ℝ) :
    (n < 3 → regular_polygon_aperture n D =
      .error "The number of sides for a regular polygon has to greater or equal to 3.") ∧
    (3 ≤ n → regular_polygon_aperture n D = .ok (regular_polygon_func n D)) := by
  unfold regular_polygon_aperture
  constructor
  · intro hlt
    rw [if_pos hlt]
  · intro hge
    rw [if_neg (Nat.not_lt.mpr hge)]

/-- Witness for C7 at num_sides 2 and 3. -/
theorem C7_witness :
    regular_polygon_aperture 2 1 =
      .error "The number of sides for a regular polygon has to greater or equal to 3." ∧
    regular_polygon_aperture 3 1 = .ok (regular_polygon_func 3 1) :=
  ⟨(C7_polygon_factory_validation 2 1).1 (by norm_num),
   (C7_polygon_factory_validation 3 1).2 (by norm_num)⟩

/-- C9: when the filename extension matches none of asdf, fits, fits.gz and
    no explicit format is given, each persistence operation raises the
    configuration ValueError, before performing any file io. -/
theorem C9_unguessable_format_value_error (filename : String) (g : Grid)
    (fld : TransmissionField)
    (h1 : ends_with filename "asdf" = false)
    (h2 : ends_with filename "fits" = false)
    (h3 : ends_with filename "fits.gz" = false) :
    read_grid filename none = .valueError ∧
    write_grid g filename none = .valueError ∧
    read_field filename none = .valueError ∧
    write_field fld filename none = .valueError := by
  have hg : guess_file_format filename = none := by
    unfold guess_file_format
    rw [h1, h2, h3]
    rfl
  exact ⟨by simp [read_grid, hg], by simp [write_grid, hg],
         by simp [read_field, hg], by simp [write_field, hg]⟩

/-- Witness for C9 at a concrete filename with an unknown extension. -/
theorem C9_witness :
    read_grid "mask.txt" none = .valueError ∧
    write_grid ⟨.cartesian, []⟩ "mask.txt" none = .valueError ∧
    read_field "mask.txt" none = .valueError ∧
    write_field ⟨[], ⟨.cartesian, []⟩⟩ "mask.txt" none = .valueError :=
  C9_unguessable_format_value_error "mask.txt" ⟨.cartesian, []⟩ ⟨[], ⟨.cartesian, []⟩⟩
    (by decide) (by decide) (by decide)

/-- Exact-arithmetic equivalence of the squared test and the radius test. -/
theorem sqrt_disk_iff (d x y : ℝ) (hd : 0 ≤ d) :
    x ^ 2 + y ^ 2 ≤ (d / 2) ^ 2 ↔ Real.sqrt (x ^ 2 + y ^ 2) ≤ d / 2 :=
  (Real.sqrt_le_left (by linarith)).symm

/-- Radius of a polar point after conversion to cartesian coordinates. -/
theorem polar_point_radius (r θ : ℝ) (hr : 0 ≤ r) :
    Real.sqrt ((r * Real.cos θ) ^ 2 + (r * Real.sin θ) ^ 2) = r := by
  have hsq : (r * Real.cos θ) ^ 2 + (r * Real.sin θ) ^ 2 = r ^ 2 := by
    linear_combination r ^ 2 * Real.sin_sq_add_cos_sq θ
  rw [hsq, Real.sqrt_sq hr]

/-- C4: under exact arithmetic the cartesian dispatch path of
    circular_aperture and the polar dispatch path assign the same mask value
    at every point, including on the boundary circle. -/
theorem C4_dispatch_paths_agree (d x y : ℝ) (hd : 0 < d) :
    circular_cartesian_test d (x, y) = circular_polar_test d (Real.sqrt (x ^ 2 + y ^ 2)) := by
  unfold circular_cartesian_test circular_polar_test
  exact indicator_congr (sqrt_disk_iff d x y hd.le)

/-- Witness for C4 at a concrete diameter and point. -/
theorem C4_witness :
    (0:ℝ) < 2 ∧
    circular_cartesian_test 2 (1, 1) = circular_polar_test 2 (Real.sqrt (1 ^ 2 + 1 ^ 2)) :=
  ⟨by norm_num, C4_dispatch_paths_agree 2 1 1 (by norm_num)⟩

/-- C3: on every well-formed grid, cartesian or polar, circular_aperture
    yields 1.0 exactly at the points whose euclidean distance from the
    origin is at most diameter over 2, and 0.0 elsewhere. -/
theorem C3_circular_distance_mask (d : ℝ) (g : Grid) (hd : 0 < d) (hg : g.valid) :
    (circular_aperture d g).values =
      g.as_cartesian.coords.map
        (fun p => indicator (Real.sqrt (p.1 ^ 2 + p.2 ^ 2) ≤ d / 2)) := by
  rcases g with ⟨(_ | _), c⟩
  · show c.map (circular_cartesian_test d) = c.map _
    congr 1
    funext p
    exact indicator_congr (sqrt_disk_iff d p.1 p.2 hd.le)
  · show (c.map (fun p => p.1)).map (circular_polar_test d) =
      (c.map (fun p => (p.1 * Real.cos p.2, p.1 * Real.sin p.2))).map _
    rw [List.map_map, List.map_map]
    apply List.map_congr_left
    intro p hp
    have hr : 0 ≤ p.1 := hg rfl p hp
    show circular_polar_test d p.1 = indicator _
    unfold circular_polar_test
    apply indicator_congr
    rw [polar_point_radius p.1 p.2 hr]

/-- Witness for C3 at a concrete diameter and one-point cartesian grid. -/
theorem C3_witness :
    (0:ℝ) < 2 ∧
    (circular_aperture 2 ⟨.cartesian, [(1, 2)]⟩).values =
      (Grid.as_cartesian ⟨.cartesian, [(1, 2)]⟩).coords.map
        (fun p => indicator (Real.sqrt (p.1 ^ 2 + p.2 ^ 2) ≤ 2 / 2)) :=
  ⟨by norm_num,
   C3_circular_distance_mask 2 ⟨.cartesian, [(1, 2)]⟩ (by norm_num) (fun h => nomatch h)⟩

/-- C10: a negative diameter is not rejected, and the two dispatch paths of
    circular_aperture disagree: the cartesian path keeps a disk of radius
    abs d over 2 while the polar path produces the all-zero field, so the
    same physical point, the origin, gets 1.0 on a cartesian grid and 0.0 on
    a polar grid. -/
theorem C10_negative_diameter_divergence (d : ℝ) (hd : d < 0) :
    (∀ g : Grid, g.system = .cartesian →
      (circular_aperture d g).values =
        g.coords.map (fun p => indicator (p.1 ^ 2 + p.2 ^ 2 ≤ (d / 2) ^ 2))) ∧
    (∀ g : Grid, g.system = .polar → g.valid →
      ∀ v ∈ (circular_aperture d g).values, v = 0) ∧
    (circular_aperture d ⟨.cartesian, [(0, 0)]⟩).values = [1] ∧
    (circular_aperture d ⟨.polar, [(0, 0)]⟩).values = [0] := by
  have hd2 : d / 2 < 0 := by linarith
  refine ⟨?_, ?_, ?_, ?_⟩
  · rintro ⟨(_ | _), c⟩ hsys
    · rfl
    · exact absurd hsys (by simp)
  · rintro ⟨(_ | _), c⟩ hsys hval v hv
    · exact absurd hsys (by simp)
    · have hv2 : v ∈ (c.map (fun p => p.1)).map (circular_polar_test d) := hv
      rw [List.map_map] at hv2
      obtain ⟨p, hp, hpv⟩ := List.mem_map.mp hv2
      have hr : 0 ≤ p.1 := hval rfl p hp
      rw [← hpv]
      show circular_polar_test d p.1 = 0
      exact indicator_of_false (by linarith)
  · show [circular_cartesian_test d (0, 0)] = [1]
    unfold circular_cartesian_test
    rw [indicator_of_true (by simpa using sq_nonneg (d / 2))]
  · show [circular_polar_test d 0] = [0]
    unfold circular_polar_test
    rw [indicator_of_false (by linarith)]

/-- Witness for C10 at diameter minus 2. -/
theorem C10_witness :
    (circular_aperture (-2) ⟨.cartesian, [(0, 0)]⟩).values = [1] ∧
    (circular_aperture (-2) ⟨.polar, [(0, 0)]⟩).values = [0] :=
  ⟨(C10_negative_diameter_divergence (-2) (by norm_num)).2.2.1,
   (C10_negative_diameter_divergence (-2) (by norm_num)).2.2.2⟩

/-- Unfolding of the rectangular aperture values. -/
theorem rectangular_values (size : Size) (center : Option (ℝ × ℝ)) (g : Grid) :
    (rectangular_aperture size center g).values =
      g.as_cartesian.coords.map (fun p =>
        indicator (|p.1| ≤ size.broadcast.1 / 2) *
          indicator (|p.2| ≤ size.broadcast.2 / 2)) := rfl

/-- Unfolding of the regular polygon sampling values. -/
theorem regular_polygon_values (n : ℕ) (D : ℝ) (g : Grid) :
    (regular_polygon_func n D g).values =
      (g.as_cartesian.coords.zip
        (rectangular_aperture (.scalar (D * 4)) none g.as_cartesian).values).map
        (fun pm => if pm.2 ≠ 0 then
          (if n % 2 = 0 then
            (polygon_thetas n).foldl
              (fun f θ => f * indicator
                (|Real.cos θ * pm.1.1 + Real.sin θ * pm.1.2| < Real.cos (pi / n) * D / 2)) 1
          else
            (polygon_thetas n).foldl
              (fun f θ => f * indicator
                (|Real.sin θ * pm.1.1| + (-Real.cos θ) * pm.1.2 < Real.cos (pi / n) * D / 2)) 1)
        else 0) := rfl

/-- A left fold of indicator products from a seed computes the seed times
    the indicator of the conjunction of all the tests. -/
theorem foldl_mul_indicator {α : Type} (P : α → Prop) (l : List α) (a : ℝ) :
    l.foldl (fun f x => f * indicator (P x)) a = a * indicator (∀ x ∈ l, P x) := by
  induction l generalizing a with
  | nil => simp [indicator_of_true]
  | cons x xs ih =>
    rw [List.foldl_cons, ih, mul_assoc, indicator_mul]
    congr 1
    exact indicator_congr (by simp [List.forall_mem_cons])

/-- C8: every field produced by the aperture factories has one value per
    grid point and only the exact values 0.0 and 1.0, and hexagonal_aperture
    is the 6-sided regular polygon factory. -/
theorem C8_field_invariants (d : ℝ) (size : Size) (center : Option (ℝ × ℝ))
    (n : ℕ) (D : ℝ) (g : Grid) :
    ((circular_aperture d g).values.length = g.size ∧
      all_binary (circular_aperture d g).values) ∧
    ((rectangular_aperture size center g).values.length = g.size ∧
      all_binary (rectangular_aperture size center g).values) ∧
    ((regular_polygon_func n D g).values.length = g.size ∧
      all_binary (regular_polygon_func n D g).values) ∧
    hexagonal_aperture D = .ok (regular_polygon_func 6 D) := by
  refine ⟨⟨?_, ?_⟩, ⟨?_, ?_⟩, ⟨?_, ?_⟩, rfl⟩
  · rcases g with ⟨(_ | _), c⟩
    · exact List.length_map _ _
    · show ((c.map _).map _).length = c.length
      rw [List.length_map, List.length_map]
  · rcases g with ⟨(_ | _), c⟩ <;> intro v hv
    · obtain ⟨p, _, hpv⟩ := List.mem_map.mp hv
      rw [← hpv]
      exact indicator_zero_or_one _
    · have hv2 : v ∈ (c.map (fun p => p.1)).map (circular_polar_test d) := hv
      obtain ⟨p, _, hpv⟩ := List.mem_map.mp hv2
      rw [← hpv]
      exact indicator_zero_or_one _
  · rw [rectangular_values, List.length_map, Grid.as_cartesian_length]
    rfl
  · intro v hv
    rw [rectangular_values] at hv
    obtain ⟨p, _, hpv⟩ := List.mem_map.mp hv
    rw [← hpv, indicator_mul]
    exact indicator_zero_or_one _
  · rw [regular_polygon_values, List.length_map, List.length_zip,
      rectangular_values, List.length_map, Grid.as_cartesian_idem,
      Nat.min_self, Grid.as_cartesian_length]
    rfl
  · intro v hv
    rw [regular_polygon_values] at hv
    obtain ⟨pm, _, hpv⟩ := List.mem_map.mp hv
    rw [← hpv]
    by_cases hm : pm.2 ≠ 0
    · rw [if_pos hm]
      by_cases hpar : n % 2 = 0
      · rw [if_pos hpar, foldl_mul_indicator, one_mul]
        exact indicator_zero_or_one _
      · rw [if_neg hpar, foldl_mul_indicator, one_mul]
        exact indicator_zero_or_one _
    · rw [if_neg hm]
      exact Or.inl rfl

/-- Mapping a zip of a list with its own image. -/
theorem zip_self_map {α β γ : Type} (l : List α) (f : α → β) (F : α × β → γ) :
    (l.zip (l.map f)).map F = l.map (fun a => F (a, f a)) := by
  induction l with
  | nil => rfl
  | cons x xs ih => simpa using ih

/-- The even tested angles are k * pi / (n / 2) for k below n / 2. -/
theorem polygon_thetas_even (p : ℕ) (hp : 0 < p) :
    polygon_thetas (2 * p) = (List.range p).map (fun k : ℕ => (k : ℝ) * pi / (p : ℝ)) := by
  unfold polygon_thetas
  rw [if_pos (by omega), Nat.mul_div_cancel_left p (by norm_num)]

/-- The odd tested angles, unfolded. -/
theorem polygon_thetas_odd (n : ℕ) (hodd : n % 2 = 1) :
    polygon_thetas n = (List.range (n / 2 + 1)).map
      (fun k : ℕ => (k : ℝ) * ((n : ℝ) - 2) * pi / ((n : ℝ) / 2)) := by
  unfold polygon_thetas
  rw [if_neg (by omega)]

/-- The odd tested angle k * (n - 2) * pi / (n / 2) equals 2 k pi minus
    4 k pi / n, so its sine is the negated sine, and its cosine the cosine,
    of 4 k pi / n. -/
theorem odd_theta_trig (n k : ℕ) (hn : 0 < n) :
    Real.sin ((k : ℝ) * ((n : ℝ) - 2) * pi / ((n : ℝ) / 2)) =
      -Real.sin (4 * k * pi / n) ∧
    Real.cos ((k : ℝ) * ((n : ℝ) - 2) * pi / ((n : ℝ) / 2)) =
      Real.cos (4 * k * pi / n) := by
  have hn0 : (n : ℝ) ≠ 0 := Nat.cast_ne_zero.mpr hn.ne'
  have hθ : (k : ℝ) * ((n : ℝ) - 2) * pi / ((n : ℝ) / 2) =
      (2 * k : ℕ) * pi - 4 * k * pi / n := by
    push_cast
    field_simp
    ring
  have hsin : Real.sin ((2 * k : ℕ) * pi) = 0 := Real.sin_nat_mul_pi (2 * k)
  have hcos : Real.cos ((2 * k : ℕ) * pi) = 1 := by
    have := Real.cos_nat_mul_two_pi k
    rw [show ((2 * k : ℕ) : ℝ) * pi = (k : ℝ) * (2 * pi) by push_cast; ring]
    exact this
  constructor
  · rw [hθ, Real.sin_sub, hsin, hcos]
    ring
  · rw [hθ, Real.cos_sub, hsin, hcos]
    ring

/-- Even-sided edge-normal projection, reduced to angle m * pi / p. -/
theorem proj_even (p m : ℕ) (hp : 0 < p) (q : ℝ × ℝ) :
    edge_normal_projection (2 * p) m q =
      Real.cos ((m : ℝ) * pi / p) * q.1 + Real.sin ((m : ℝ) * pi / p) * q.2 := by
  have hp0 : (p : ℝ) ≠ 0 := Nat.cast_ne_zero.mpr hp.ne'
  unfold edge_normal_projection
  rw [if_pos (by omega)]
  rw [show 2 * (m : ℝ) * pi / ((2 * p : ℕ) : ℝ) = (m : ℝ) * pi / p by
    push_cast; field_simp; ring]

/-- Odd-sided edge-normal projection, unfolded. -/
theorem proj_odd (n m : ℕ) (hodd : n % 2 = 1) (q : ℝ × ℝ) :
    edge_normal_projection n m q =
      Real.sin (2 * m * pi / n) * q.1 - Real.cos (2 * m * pi / n) * q.2 := by
  unfold edge_normal_projection
  rw [if_neg (by omega)]

/-- Splitting an absolute-value half-plane test into the two signed tests. -/
theorem abs_term_lt_iff (t c a : ℝ) :
    |t| + c < a ↔ t + c < a ∧ -t + c < a := by
  constructor
  · intro h
    exact ⟨by linarith [le_abs_self t], by linarith [neg_abs_le t]⟩
  · rintro ⟨h1, h2⟩
    rcases abs_cases t with ⟨heq, _⟩ | ⟨heq, _⟩
    · rw [heq]; linarith
    · rw [heq]; linarith

/-- Even case of the symmetry reduction: the half tests with an absolute
    value are equivalent to all 2 p signed half-plane tests. -/
theorem even_pointwise (p : ℕ) (hp : 0 < p) (a x y : ℝ) :
    (∀ k < p, |Real.cos ((k : ℝ) * pi / p) * x + Real.sin ((k : ℝ) * pi / p) * y| < a) ↔
    (∀ m < 2 * p, Real.cos ((m : ℝ) * pi / p) * x + Real.sin ((m : ℝ) * pi / p) * y < a) := by
  have hp0 : (p : ℝ) ≠ 0 := Nat.cast_ne_zero.mpr hp.ne'
  constructor
  · intro h m hm
    by_cases hmp : m < p
    · exact (abs_lt.mp (h m hmp)).2
    · have hk : m - p < p := by omega
      have habs := abs_lt.mp (h (m - p) hk)
      have hang : (m : ℝ) * pi / p = ((m - p : ℕ) : ℝ) * pi / p + pi := by
        rw [Nat.cast_sub (le_of_not_lt hmp)]
        field_simp
        ring
      rw [hang, Real.cos_add_pi, Real.sin_add_pi]
      nlinarith [habs.1]
  · intro h k hk
    rw [abs_lt]
    refine ⟨?_, h k (by omega)⟩
    have hpk := h (k + p) (by omega)
    have hang : ((k + p : ℕ) : ℝ) * pi / p = (k : ℝ) * pi / p + pi := by
      push_cast
      field_simp
      ring
    rw [hang, Real.cos_add_pi, Real.sin_add_pi] at hpk
    nlinarith [hpk]

/-- Odd case of the symmetry reduction: the ceil of n over 2 absolute-value
    tests at angles 4 k pi / n are equivalent to all n signed half-plane
    tests at angles 2 m pi / n. -/
theorem odd_pointwise (n : ℕ) (hodd : n % 2 = 1) (hn : 3 ≤ n) (a x y : ℝ) :
    (∀ k < n / 2 + 1,
      |Real.sin (4 * k * pi / n) * x| + (-Real.cos (4 * k * pi / n)) * y < a) ↔
    (∀ m < n, Real.sin (2 * m * pi / n) * x - Real.cos (2 * m * pi / n) * y < a) := by
  have hn0 : (n : ℝ) ≠ 0 := Nat.cast_ne_zero.mpr (by omega)
  constructor
  · intro h m hm
    rcases Nat.even_or_odd m with hme | hmo
    · obtain ⟨j, hj⟩ := hme
      have hjlt : j < n / 2 + 1 := by omega
      have := (abs_term_lt_iff _ _ _).mp (h j hjlt)
      have hang : 4 * (j : ℝ) * pi / n = 2 * (m : ℝ) * pi / n := by
        rw [hj]; push_cast; ring
      rw [hang] at this
      have := this.1
      linarith [this]
    · obtain ⟨j, hj⟩ := hmo
      have hk : (n - m) % 2 = 0 := by omega
      set k := (n - m) / 2 with hkdef
      have hklt : k < n / 2 + 1 := by omega
      have h2k : 2 * k = n - m := by omega
      have := (abs_term_lt_iff _ _ _).mp (h k hklt)
      have hang : 4 * (k : ℝ) * pi / n = 2 * pi - 2 * (m : ℝ) * pi / n := by
        have hmn : m ≤ n := by omega
        have hcast : (k : ℝ) * 2 = (n : ℝ) - m := by
          rw [show ((n : ℝ) - (m : ℝ)) = ((n - m : ℕ) : ℝ) by rw [Nat.cast_sub hmn], ← h2k]
          push_cast; ring
        field_simp
        linear_combination (2 * pi) * hcast
      rw [hang, Real.sin_two_pi_sub, Real.cos_two_pi_sub] at this
      have := this.2
      linarith [this]
  · intro h k hk
    rw [abs_term_lt_iff]
    constructor
    · have h2k : 2 * k < n := by omega
      have hm := h (2 * k) h2k
      have hang : 2 * ((2 * k : ℕ) : ℝ) * pi / n = 4 * (k : ℝ) * pi / n := by
        push_cast
        ring
      rw [hang] at hm
      linarith [hm]
    · by_cases hk0 : k = 0
      · subst hk0
        have hm := h 0 (by omega)
        have ha0 : 2 * ((0 : ℕ) : ℝ) * pi / n = 0 := by push_cast; ring
        have hb0 : 4 * ((0 : ℕ) : ℝ) * pi / n = 0 := by push_cast; ring
        rw [ha0, Real.sin_zero, Real.cos_zero] at hm
        rw [hb0, Real.sin_zero, Real.cos_zero]
        linarith [hm]
      · have hlt : n - 2 * k < n := by omega
        have hm := h (n - 2 * k) hlt
        have hang : 2 * ((n - 2 * k : ℕ) : ℝ) * pi / n = 2 * pi - 4 * (k : ℝ) * pi / n := by
          have h2 : ((n - 2 * k : ℕ) : ℝ) = (n : ℝ) - 2 * k := by
            rw [Nat.cast_sub (by omega : 2 * k ≤ n)]
            push_cast
            ring
          rw [h2]
          field_simp
          ring
        rw [hang, Real.sin_two_pi_sub, Real.cos_two_pi_sub] at hm
        linarith [hm]

/-- From c v strictly below 2 a with 2 a equal to c D and c positive,
    conclude v below D. -/
theorem bound_from_scaled (c v a D : ℝ) (hc : 0 < c) (h2a : 2 * a = c * D)
    (h : c * v < 2 * a) : v < D := by
  by_contra hvD
  push_neg at hvD
  have := mul_le_mul_of_nonneg_left hvD hc.le
  linarith

/-- Prefilter soundness, even case: a point satisfying all 2 p signed
    half-plane tests lies inside the 4 D bounding square. -/
theorem prefilter_even (p : ℕ) (hp : 2 ≤ p) (D x y : ℝ) (hD : 0 < D)
    (h : ∀ m < 2 * p, Real.cos ((m : ℝ) * pi / p) * x + Real.sin ((m : ℝ) * pi / p) * y <
      Real.cos (pi / (2 * (p : ℝ))) * D / 2) :
    |x| ≤ D * 4 / 2 ∧ |y| ≤ D * 4 / 2 := by
  have hπ := Real.pi_pos
  have hppos : 0 < p := by omega
  have hpR : (0 : ℝ) < p := by exact_mod_cast hppos
  have hp0 : (p : ℝ) ≠ 0 := hpR.ne'
  have hp2R : (2 : ℝ) ≤ (p : ℝ) := by exact_mod_cast hp
  set T : ℝ := pi / (2 * (p : ℝ)) with hT
  set c : ℝ := Real.cos T with hc
  set a : ℝ := c * D / 2 with ha
  have hTpos : 0 < T := by rw [hT]; positivity
  have hTlt : T < pi / 2 := by
    rw [hT]
    exact div_lt_div_of_pos_left hπ two_pos (by linarith)
  have hTpi : T ≤ pi := by
    rw [hT]
    exact div_le_self hπ.le (by linarith)
  have hcpos : 0 < c := Real.cos_pos_of_mem_Ioo ⟨by linarith, hTlt⟩
  have hc1 : c ≤ 1 := Real.cos_le_one T
  have hcD : c * D ≤ D := mul_le_of_le_one_left hD.le hc1
  have hapos : 0 < a := by
    rw [ha]
    exact div_pos (mul_pos hcpos hD) two_pos
  have h2a : 2 * a = c * D := by rw [ha]; ring
  have hsin0 : 0 ≤ Real.sin T := Real.sin_nonneg_of_nonneg_of_le_pi hTpos.le hTpi
  have hsin1 : Real.sin T ≤ 1 := Real.sin_le_one T
  have hm0 := h 0 (by omega)
  rw [show ((0 : ℕ) : ℝ) * pi / p = 0 by push_cast; ring,
    Real.cos_zero, Real.sin_zero] at hm0
  have hmp := h p (by omega)
  rw [show ((p : ℕ) : ℝ) * pi / p = pi by field_simp,
    Real.cos_pi, Real.sin_pi] at hmp
  have hxa : |x| < a := abs_lt.mpr ⟨by linarith, by linarith⟩
  have hxa2 : x ≤ |x| := le_abs_self x
  have hxabs : 0 ≤ |x| := abs_nonneg x
  have hsx : Real.sin T * x ≤ |x| := by
    calc Real.sin T * x ≤ Real.sin T * |x| := mul_le_mul_of_nonneg_left hxa2 hsin0
      _ ≤ 1 * |x| := mul_le_mul_of_nonneg_right hsin1 hxabs
      _ = |x| := one_mul _
  have hy : y < D ∧ -y < D := by
    rcases Nat.even_or_odd p with hpe | hpo
    · obtain ⟨q, hq⟩ := hpe
      have hq1 : 1 ≤ q := by omega
      have hqR : ((q : ℝ)) ≠ 0 := by
        have : (0 : ℝ) < q := by exact_mod_cast (by omega : 0 < q)
        exact this.ne'
      have hm1 := h q (by omega)
      rw [show ((q : ℕ) : ℝ) * pi / p = pi / 2 by
        rw [hq]; push_cast; field_simp [hqR]; ring,
        Real.cos_pi_div_two, Real.sin_pi_div_two] at hm1
      have hm2 := h (2 * p - q) (by omega)
      rw [show ((2 * p - q : ℕ) : ℝ) * pi / p = 2 * pi - pi / 2 by
        rw [Nat.cast_sub (by omega), hq]; push_cast; field_simp [hqR]; ring,
        Real.cos_two_pi_sub, Real.sin_two_pi_sub,
        Real.cos_pi_div_two, Real.sin_pi_div_two] at hm2
      constructor
      · have hya : y < a := by linarith
        linarith
      · have hya : -y < a := by linarith
        linarith
    · obtain ⟨q, hq⟩ := hpo
      have hpq : (p : ℝ) = 2 * (q : ℝ) + 1 := by rw [hq]; push_cast; ring
      have hm1 := h (q + 1) (by omega)
      rw [show ((q + 1 : ℕ) : ℝ) * pi / p = pi / 2 + T by
        rw [hT, hpq]
        push_cast
        have hne : (2 : ℝ) * (q : ℝ) + 1 ≠ 0 := by positivity
        field_simp
        ring] at hm1
      rw [show Real.cos (pi / 2 + T) = -Real.sin T by
        rw [add_comm]; exact Real.cos_add_pi_div_two T] at hm1
      rw [show Real.sin (pi / 2 + T) = c by
        rw [hc, add_comm]; exact Real.sin_add_pi_div_two T] at hm1
      have hyc : c * y < 2 * a := by linarith
      have hm2 := h (2 * p - (q + 1)) (by omega)
      rw [show ((2 * p - (q + 1) : ℕ) : ℝ) * pi / p = 2 * pi - (pi / 2 + T) by
        rw [Nat.cast_sub (by omega), hT]
        push_cast
        rw [hpq]
        have hne : (2 : ℝ) * (q : ℝ) + 1 ≠ 0 := by positivity
        field_simp
        ring,
        Real.cos_two_pi_sub, Real.sin_two_pi_sub] at hm2
      rw [show Real.cos (pi / 2 + T) = -Real.sin T by
        rw [add_comm]; exact Real.cos_add_pi_div_two T] at hm2
      rw [show Real.sin (pi / 2 + T) = c by
        rw [hc, add_comm]; exact Real.sin_add_pi_div_two T] at hm2
      have hyc2 : c * (-y) < 2 * a := by linarith
      exact ⟨bound_from_scaled c y a D hcpos h2a hyc,
        bound_from_scaled c (-y) a D hcpos h2a hyc2⟩
  refine ⟨by linarith [hxa], ?_⟩
  have hyabs : |y| < D := abs_lt.mpr ⟨by linarith [hy.2], hy.1⟩
  linarith

/-- Resolution of the two coupled bounds c u < a + s v and c v < a + s u
    when c is at least 4 / 5 and s at most 3 / 5. -/
theorem odd_system_bound (c s a D u v : ℝ) (hc : 4 / 5 ≤ c) (hs : s ≤ 3 / 5)
    (hs0 : 0 ≤ s) (hu : 0 ≤ u) (hv : 0 ≤ v) (hD : 0 < D) (ha : a = c * D / 2)
    (h1 : c * u < a + s * v) (h2 : c * v < a + s * u) : u ≤ D * 4 / 2 := by
  subst ha
  have hcpos : (0 : ℝ) < c := by linarith
  have hkey : (c * c - s * s) * u < (c * D / 2) * (c + s) := by
    nlinarith [mul_lt_mul_of_pos_left h1 hcpos,
      mul_le_mul_of_nonneg_left h2.le hs0]
  have haux : (c * D / 2) * (c + s) ≤ (c * c - s * s) * (D * 4 / 2) := by
    nlinarith [mul_nonneg (mul_nonneg (show (0 : ℝ) ≤ c + s by linarith) hD.le)
      (show (0 : ℝ) ≤ 3 * c - 4 * s by linarith)]
  have hpos : 0 < c * c - s * s := by nlinarith
  nlinarith [hkey, haux, hpos]

set_option maxHeartbeats 1000000 in
/-- Prefilter soundness, odd case: a point satisfying all n signed
    half-plane tests lies inside the 4 D bounding square. -/
theorem prefilter_odd (n : ℕ) (hodd : n % 2 = 1) (hn : 3 ≤ n) (D x y : ℝ) (hD : 0 < D)
    (h : ∀ m < n, Real.sin (2 * (m : ℝ) * pi / n) * x - Real.cos (2 * (m : ℝ) * pi / n) * y <
      Real.cos (pi / n) * D / 2) :
    |x| ≤ D * 4 / 2 ∧ |y| ≤ D * 4 / 2 := by
  have hπ := Real.pi_pos
  by_cases hn3 : n = 3
  · subst hn3
    push_cast at h
    have hm0 := h 0 (by norm_num)
    push_cast at hm0
    rw [show 2 * (0 : ℝ) * pi / 3 = 0 by ring, Real.sin_zero, Real.cos_zero] at hm0
    have hm1 := h 1 (by norm_num)
    push_cast at hm1
    rw [show 2 * (1 : ℝ) * pi / 3 = pi - pi / 3 by ring,
      Real.sin_pi_sub, Real.cos_pi_sub, Real.sin_pi_div_three,
      Real.cos_pi_div_three] at hm1
    have hm2 := h 2 (by norm_num)
    push_cast at hm2
    rw [show 2 * (2 : ℝ) * pi / 3 = 2 * pi - (pi - pi / 3) by ring,
      Real.sin_two_pi_sub, Real.cos_two_pi_sub,
      Real.sin_pi_sub, Real.cos_pi_sub, Real.sin_pi_div_three,
      Real.cos_pi_div_three] at hm2
    rw [Real.cos_pi_div_three] at hm0
    have hs1 : 1 ≤ Real.sqrt 3 := by
      nlinarith [Real.sq_sqrt (show (0 : ℝ) ≤ 3 by norm_num), Real.sqrt_nonneg 3]
    constructor
    · rw [abs_le]
      constructor
      · by_contra hcon
        push_neg at hcon
        have hxneg : x < 0 := by linarith
        have hmul : Real.sqrt 3 * (-x) ≥ 1 * (-x) :=
          mul_le_mul_of_nonneg_right hs1 (by linarith)
        nlinarith [hm2, hm0]
      · by_contra hcon
        push_neg at hcon
        have hxpos : 0 < x := by linarith
        have hmul : 1 * x ≤ Real.sqrt 3 * x :=
          mul_le_mul_of_nonneg_right hs1 hxpos.le
        nlinarith [hm1, hm0]
    · rw [abs_le]
      constructor
      · nlinarith [hm0]
      · nlinarith [hm1, hm2]
  · have hn5 : 5 ≤ n := by omega
    have hnR : (0 : ℝ) < n := by exact_mod_cast (by omega : 0 < n)
    have hn0 : (n : ℝ) ≠ 0 := hnR.ne'
    have hn5R : (5 : ℝ) ≤ n := by exact_mod_cast hn5
    set c : ℝ := Real.cos (pi / n) with hc
    set s : ℝ := Real.sin (pi / n) with hs
    set a : ℝ := c * D / 2 with ha
    clear_value c s a
    have hAle5 : pi / n ≤ pi / 5 := div_le_div_of_nonneg_left hπ.le (by norm_num) hn5R
    have hApos : 0 < pi / (n : ℝ) := by positivity
    have hAle : pi / (n : ℝ) ≤ pi := div_le_self hπ.le (by linarith)
    have hc45 : 4 / 5 ≤ c := by
      have hmono : Real.cos (pi / 5) ≤ Real.cos (pi / n) :=
        Real.cos_le_cos_of_nonneg_of_le_pi hApos.le (by linarith) hAle5
      have hval : Real.cos (pi / 5) = (1 + Real.sqrt 5) / 4 := Real.cos_pi_div_five
      have h5 : (11 : ℝ) / 5 ≤ Real.sqrt 5 := by
        nlinarith [Real.sq_sqrt (show (0 : ℝ) ≤ 5 by norm_num), Real.sqrt_nonneg 5]
      rw [hc]
      rw [hval] at hmono
      linarith
    have hcpos : (0 : ℝ) < c := by linarith
    have hc1 : c ≤ 1 := by rw [hc]; exact Real.cos_le_one _
    have hs0 : 0 ≤ s := by rw [hs]; exact Real.sin_nonneg_of_nonneg_of_le_pi hApos.le hAle
    have hsq : s ^ 2 + c ^ 2 = 1 := by rw [hs, hc]; exact Real.sin_sq_add_cos_sq _
    have hs35 : s ≤ 3 / 5 := by nlinarith [hsq, hc45, hs0]
    have hapos : 0 < a := by
      rw [ha]
      exact div_pos (mul_pos hcpos hD) two_pos
    -- constraint from the downward normal
    have hm0 := h 0 (by omega)
    rw [show 2 * ((0 : ℕ) : ℝ) * pi / n = 0 by push_cast; ring,
      Real.sin_zero, Real.cos_zero] at hm0
    -- constraint from the upward pair of normals
    have hy2 : 2 * ((n - 1) / 2) = n - 1 := by omega
    have hmy := h ((n - 1) / 2) (by omega)
    rw [show 2 * ((((n - 1) / 2 : ℕ)) : ℝ) * pi / (n : ℝ) = pi - pi / n by
      have h0 : ((2 * ((n - 1) / 2) : ℕ) : ℝ) = ((n - 1 : ℕ) : ℝ) := by rw [hy2]
      rw [Nat.cast_sub (by omega : 1 ≤ n)] at h0
      push_cast at h0
      rw [show 2 * ((((n - 1) / 2 : ℕ)) : ℝ) * pi / (n : ℝ) =
        (2 * ((((n - 1) / 2 : ℕ)) : ℝ)) * pi / n by ring, h0]
      field_simp
      ring,
      Real.sin_pi_sub, Real.cos_pi_sub] at hmy
    -- the tilted pair of normals near the x axis
    have hTpos : 0 < pi / (2 * (n : ℝ)) := by positivity
    have hT2 : pi / (n : ℝ) = 2 * (pi / (2 * (n : ℝ))) := by
      field_simp
      ring
    have hctT : c ≤ Real.cos (pi / (2 * (n : ℝ))) := by
      rw [hc]
      exact Real.cos_le_cos_of_nonneg_of_le_pi (by positivity) hAle
        (by rw [hT2]; nlinarith [hTpos])
    have hsT0 : 0 ≤ Real.sin (pi / (2 * (n : ℝ))) :=
      Real.sin_nonneg_of_nonneg_of_le_pi hTpos.le (by
        have : pi / (2 * (n : ℝ)) ≤ pi := div_le_self hπ.le (by linarith)
        linarith)
    have hsTs : Real.sin (pi / (2 * (n : ℝ))) ≤ s := by
      have hdouble : s = 2 * Real.sin (pi / (2 * (n : ℝ))) * Real.cos (pi / (2 * (n : ℝ))) := by
        rw [hs, hT2]
        exact Real.sin_two_mul _
      have hcT_half : 1 / 2 ≤ Real.cos (pi / (2 * (n : ℝ))) :=
        le_trans (by norm_num) (le_trans hc45 hctT)
      have hfac : 0 ≤ Real.sin (pi / (2 * (n : ℝ))) * (2 * Real.cos (pi / (2 * (n : ℝ))) - 1) :=
        mul_nonneg hsT0 (by linarith)
      rw [hdouble]
      nlinarith [hfac]
    have hkx : ∃ mp : ℕ, 1 ≤ mp ∧ mp < n ∧
        (2 * ((mp : ℕ) : ℝ) * pi / n = pi / 2 - pi / (2 * (n : ℝ)) ∨
         2 * ((mp : ℕ) : ℝ) * pi / n = pi / 2 + pi / (2 * (n : ℝ))) := by
      rcases (by omega : n % 4 = 1 ∨ n % 4 = 3) with h4 | h4
      · refine ⟨(n - 1) / 4, by omega, by omega, Or.inl ?_⟩
        have h4m : 4 * ((n - 1) / 4) = n - 1 := by omega
        have h0 : ((4 * ((n - 1) / 4) : ℕ) : ℝ) = ((n - 1 : ℕ) : ℝ) := by rw [h4m]
        rw [Nat.cast_sub (by omega : 1 ≤ n)] at h0
        push_cast at h0
        rw [show 2 * ((((n - 1) / 4 : ℕ)) : ℝ) * pi / (n : ℝ) =
          (4 * ((((n - 1) / 4 : ℕ)) : ℝ)) * pi / (2 * n) by field_simp; ring, h0]
        field_simp
        ring
      · refine ⟨(n + 1) / 4, by omega, by omega, Or.inr ?_⟩
        have h4m : 4 * ((n + 1) / 4) = n + 1 := by omega
        have h0 : ((4 * ((n + 1) / 4) : ℕ) : ℝ) = ((n + 1 : ℕ) : ℝ) := by rw [h4m]
        push_cast at h0
        rw [show 2 * ((((n + 1) / 4 : ℕ)) : ℝ) * pi / (n : ℝ) =
          (4 * ((((n + 1) / 4 : ℕ)) : ℝ)) * pi / (2 * n) by field_simp; ring, h0]
        field_simp
        ring
    obtain ⟨mp, hmp1, hmpn, hang⟩ := hkx
    have habsx : 0 ≤ |x| := abs_nonneg x
    have habsy : 0 ≤ |y| := abs_nonneg y
    have hyabs : y ≤ |y| := le_abs_self y
    have hynabs : -y ≤ |y| := neg_le_abs y
    have hxabs : x ≤ |x| := le_abs_self x
    have hxnabs : -x ≤ |x| := neg_le_abs x
    have hsTy : Real.sin (pi / (2 * (n : ℝ))) * |y| ≤ s * |y| :=
      mul_le_mul_of_nonneg_right hsTs habsy
    -- direct constraint at mp
    have hmx := h mp (by omega)
    -- mirrored constraint at n - mp
    have hmxm := h (n - mp) (by omega)
    rw [show 2 * (((n - mp : ℕ)) : ℝ) * pi / (n : ℝ) = 2 * pi - 2 * ((mp : ℕ) : ℝ) * pi / n by
      rw [Nat.cast_sub (by omega : mp ≤ n)]
      field_simp
      ring,
      Real.sin_two_pi_sub, Real.cos_two_pi_sub] at hmxm
    have hcx : Real.cos (pi / (2 * (n : ℝ))) * x < a + s * |y| := by
      rcases hang with hangl | hangr
      · rw [hangl, Real.sin_pi_div_two_sub, Real.cos_pi_div_two_sub] at hmx
        have : Real.sin (pi / (2 * (n : ℝ))) * y ≤ Real.sin (pi / (2 * (n : ℝ))) * |y| :=
          mul_le_mul_of_nonneg_left hyabs hsT0
        linarith [hsTy]
      · rw [hangr] at hmx
        rw [show Real.sin (pi / 2 + pi / (2 * (n : ℝ))) = Real.cos (pi / (2 * (n : ℝ))) by
          rw [add_comm]; exact Real.sin_add_pi_div_two _] at hmx
        rw [show Real.cos (pi / 2 + pi / (2 * (n : ℝ))) = -Real.sin (pi / (2 * (n : ℝ))) by
          rw [add_comm]; exact Real.cos_add_pi_div_two _] at hmx
        have : Real.sin (pi / (2 * (n : ℝ))) * (-y) ≤ Real.sin (pi / (2 * (n : ℝ))) * |y| :=
          mul_le_mul_of_nonneg_left hynabs hsT0
        linarith [hsTy]
    have hcxm : Real.cos (pi / (2 * (n : ℝ))) * (-x) < a + s * |y| := by
      rcases hang with hangl | hangr
      · rw [hangl, Real.sin_pi_div_two_sub, Real.cos_pi_div_two_sub] at hmxm
        have : Real.sin (pi / (2 * (n : ℝ))) * y ≤ Real.sin (pi / (2 * (n : ℝ))) * |y| :=
          mul_le_mul_of_nonneg_left hyabs hsT0
        linarith [hsTy]
      · rw [hangr] at hmxm
        rw [show Real.sin (pi / 2 + pi / (2 * (n : ℝ))) = Real.cos (pi / (2 * (n : ℝ))) by
          rw [add_comm]; exact Real.sin_add_pi_div_two _] at hmxm
        rw [show Real.cos (pi / 2 + pi / (2 * (n : ℝ))) = -Real.sin (pi / (2 * (n : ℝ))) by
          rw [add_comm]; exact Real.cos_add_pi_div_two _] at hmxm
        have : Real.sin (pi / (2 * (n : ℝ))) * (-y) ≤ Real.sin (pi / (2 * (n : ℝ))) * |y| :=
          mul_le_mul_of_nonneg_left hynabs hsT0
        linarith [hsTy]
    -- the coupled system
    have hA : c * |x| < a + s * |y| := by
      have hcc : c * |x| ≤ Real.cos (pi / (2 * (n : ℝ))) * |x| :=
        mul_le_mul_of_nonneg_right hctT habsx
      rcases abs_cases x with ⟨hxe, _⟩ | ⟨hxe, _⟩
      · rw [hxe] at hcc ⊢
        linarith [hcx]
      · rw [hxe] at hcc ⊢
        linarith [hcxm]
    have hB : c * |y| < a + s * |x| := by
      have hsx : s * (-x) ≤ s * |x| := mul_le_mul_of_nonneg_left hxnabs hs0
      rcases abs_cases y with ⟨hye, hy0⟩ | ⟨hye, hy0⟩
      · rw [hye]
        nlinarith [hmy, hsx]
      · rw [hye]
        have hny : -y < a := by linarith [hm0]
        have : c * (-y) ≤ 1 * (-y) := mul_le_mul_of_nonneg_right hc1 (by linarith)
        have hspos : 0 ≤ s * |x| := mul_nonneg hs0 habsx
        linarith
    exact ⟨odd_system_bound c s a D |x| |y| hc45 hs35 hs0 habsx habsy hD ha hA hB,
      odd_system_bound c s a D |y| |x| hc45 hs35 hs0 habsy habsx hD ha hB hA⟩

/-- Unfolding of the brute-force reference values. -/
theorem brute_force_values (n : ℕ) (D : ℝ) (g : Grid) :
    (brute_force_polygon_mask n D g).values =
      g.as_cartesian.coords.map (fun p =>
        indicator (∀ m < n,
          edge_normal_projection n m p < Real.cos (pi / n) * D / 2)) := rfl

/-- Unfolding of the rectangular aperture values at a scalar size. -/
theorem rectangular_scalar_values (s : ℝ) (center : Option (ℝ × ℝ)) (g : Grid) :
    (rectangular_aperture (.scalar s) center g).values =
      g.as_cartesian.coords.map (fun p =>
        indicator (|p.1| ≤ s / 2) * indicator (|p.2| ≤ s / 2)) := rfl

/-- Quantification over the image of an initial segment. -/
theorem forall_mem_range_map {α : Type} (f : ℕ → α) (q : ℕ) (P : α → Prop) :
    (∀ θ ∈ (List.range q).map f, P θ) ↔ ∀ k < q, P (f k) := by
  constructor
  · intro h k hk
    exact h (f k) (List.mem_map_of_mem f (List.mem_range.mpr hk))
  · intro h θ hθ
    obtain ⟨k, hk, rfl⟩ := List.mem_map.mp hθ
    exact h k (List.mem_range.mp hk)

/-- C2: for every num_sides at least 3 and positive circum_diameter, the
    sampling function of regular_polygon_aperture, with its 4 D bounding
    prefilter and its symmetry-reduced half-edge tests in both the even
    and the odd branch, computes exactly the brute-force reference mask
    that tests all n edge-normal half planes against the apothem. -/
theorem C2_polygon_refinement (n : ℕ) (D : ℝ) (g : Grid) (hn : 3 ≤ n) (hD : 0 < D) :
    regular_polygon_aperture n D = .ok (regular_polygon_func n D) ∧
    (regular_polygon_func n D g).values = (brute_force_polygon_mask n D g).values := by
  refine ⟨by unfold regular_polygon_aperture; rw [if_neg (Nat.not_lt.mpr hn)], ?_⟩
  rw [regular_polygon_values, brute_force_values,
    rectangular_scalar_values (D * 4) none g.as_cartesian, Grid.as_cartesian_idem,
    zip_self_map]
  congr 1
  funext p
  dsimp only
  by_cases hbox : |p.1| ≤ D * 4 / 2 ∧ |p.2| ≤ D * 4 / 2
  · have hne : indicator (|p.1| ≤ D * 4 / 2) * indicator (|p.2| ≤ D * 4 / 2) ≠ 0 := by
      rw [indicator_mul]
      exact (indicator_ne_zero_iff _).mpr hbox
    rw [if_pos hne]
    by_cases hpar : n % 2 = 0
    · obtain ⟨q, hq⟩ : ∃ q, n = 2 * q := ⟨n / 2, by omega⟩
      subst hq
      have hq0 : 0 < q := by omega
      rw [if_pos hpar, foldl_mul_indicator, one_mul]
      apply indicator_congr
      rw [polygon_thetas_even q hq0, forall_mem_range_map]
      constructor
      · intro hall m hm
        rw [proj_even q m hq0]
        exact (even_pointwise q hq0 _ p.1 p.2).mp hall m hm
      · intro hall k hk
        exact (even_pointwise q hq0 _ p.1 p.2).mpr (fun m hm => by
          have hthis := hall m hm
          rwa [proj_even q m hq0] at hthis) k hk
    · have hodd : n % 2 = 1 := by omega
      rw [if_neg hpar, foldl_mul_indicator, one_mul]
      apply indicator_congr
      rw [polygon_thetas_odd n hodd, forall_mem_range_map]
      constructor
      · intro hall m hm
        rw [proj_odd n m hodd]
        refine (odd_pointwise n hodd hn (Real.cos (pi / n) * D / 2) p.1 p.2).mp ?_ m hm
        intro k hk
        have h1 := hall k hk
        obtain ⟨hsin, hcos⟩ := odd_theta_trig n k (by omega)
        rw [hsin, hcos] at h1
        rwa [show -Real.sin (4 * (k : ℝ) * pi / n) * p.1 =
          -(Real.sin (4 * (k : ℝ) * pi / n) * p.1) by ring, abs_neg] at h1
      · intro hall k hk
        obtain ⟨hsin, hcos⟩ := odd_theta_trig n k (by omega)
        rw [hsin, hcos, show -Real.sin (4 * (k : ℝ) * pi / n) * p.1 =
          -(Real.sin (4 * (k : ℝ) * pi / n) * p.1) by ring, abs_neg]
        exact (odd_pointwise n hodd hn (Real.cos (pi / n) * D / 2) p.1 p.2).mpr
          (fun m hm => by
            have hthis := hall m hm
            rwa [proj_odd n m hodd] at hthis) k hk
  · have heq0 : indicator (|p.1| ≤ D * 4 / 2) * indicator (|p.2| ≤ D * 4 / 2) = 0 := by
      rw [indicator_mul]
      exact indicator_of_false hbox
    have hnall : ¬(∀ m < n, edge_normal_projection n m p < Real.cos (pi / n) * D / 2) := by
      intro hall
      by_cases hpar : n % 2 = 0
      · obtain ⟨q, hq⟩ : ∃ q, n = 2 * q := ⟨n / 2, by omega⟩
        subst hq
        have hbox2 := prefilter_even q (by omega) D p.1 p.2 hD (fun m hm => by
          have hthis := hall m hm
          rw [proj_even q m (by omega)] at hthis
          rwa [show (((2 * q : ℕ)) : ℝ) = 2 * (q : ℝ) by push_cast; ring] at hthis)
        exact hbox ⟨hbox2.1, hbox2.2⟩
      · have hodd : n % 2 = 1 := by omega
        have hbox2 := prefilter_odd n hodd hn D p.1 p.2 hD (fun m hm => by
          have hthis := hall m hm
          rwa [proj_odd n m hodd] at hthis)
        exact hbox ⟨hbox2.1, hbox2.2⟩
    rw [if_neg (not_not_intro heq0), indicator_of_false hnall]

/-- Witness for C2 at a concrete polygon and one-point grid. -/
theorem C2_witness :
    regular_polygon_aperture 3 2 = .ok (regular_polygon_func 3 2) ∧
    (regular_polygon_func 3 2 ⟨.cartesian, [(0, 0)]⟩).values =
      (brute_force_polygon_mask 3 2 ⟨.cartesian, [(0, 0)]⟩).values :=
  C2_polygon_refinement 3 2 ⟨.cartesian, [(0, 0)]⟩ (by norm_num) (by norm_num)
